import Mathlib

/-
Verification of the Proximity Ranking Engine of the wordGuesser repository.

The backend application modules (embedding.py, routes.py) are not present in
the repository snapshot; their central functions are quoted verbatim in the
repository documentation (FASTTEXT_MODEL_USAGE doc, FASTTEXT_SETUP.md), and
the engine (Ranking Builder, Ranking Cache, Proximity Query API) is specified
in spec.md.  Definitions below are translated from the quoted source where it
exists and modelled from the spec where it does not; each doc comment says
which.  The frontend display logic is translated from frontend/app/page.tsx
(the version with proximity display).
-/

namespace WordGuesser

/-- A word is modelled as its character list; the repository works with
Python and TypeScript strings. -/
abbrev Word := List Char

/-- Whitespace test used by Python str.strip and JavaScript String.trim
(restricted to the common ASCII whitespace characters). -/
def isSpaceChar (c : Char) : Bool :=
  c = ' ' || c = '\t' || c = '\n' || c = '\r'

/-- Strip leading and trailing whitespace, as Python str.strip does. -/
def stripW (w : Word) : Word :=
  ((w.dropWhile isSpaceChar).reverse.dropWhile isSpaceChar).reverse

/-- Lowercase a single ASCII character, as Python str.lower does on ASCII. -/
def lowerChar (c : Char) : Char :=
  if 'A' ≤ c ∧ c ≤ 'Z' then Char.ofNat (c.toNat + 32) else c

/-- Normalization applied to a guess before scoring: translated from the
quoted score_guess source, guess = request.guess.strip().lower(). -/
def normalizeW (w : Word) : Word :=
  (stripW w).map lowerChar

/-! ## Similarity Function over real vectors -/

/-- Dot product of two vectors, np.dot in the quoted cosine_similarity. -/
def dotL (a b : List ℝ) : ℝ :=
  (List.zipWith (fun x y => x * y) a b).sum

/-- Euclidean norm of a vector, np.linalg.norm in the quoted source. -/
noncomputable def normL (a : List ℝ) : ℝ :=
  Real.sqrt (dotL a a)

/-- Raw cosine similarity, translated from cosine_similarity in
FASTTEXT_SETUP.md: np.dot(vec1, vec2) / (np.linalg.norm(vec1) * np.linalg.norm(vec2)). -/
noncomputable def cosine_similarity (v1 v2 : List ℝ) : ℝ :=
  dotL v1 v2 / (normL v1 * normL v2)

open Classical in
/-- Public similarity score.  The cosine computation and the (cos + 1) / 2
normalization are translated from the quoted compute_similarity source.
Modelled from the spec: the zero-magnitude guard, which is absent from the
quoted snippet — spec section 4.1 defines similarity to be 0.0 when either
vector has zero magnitude, so the division is never taken with a zero
denominator. -/
noncomputable def compute_similarity (v1 v2 : List ℝ) : ℝ :=
  if normL v1 = 0 ∨ normL v2 = 0 then 0
  else (cosine_similarity v1 v2 + 1) / 2

theorem dotL_self_nonneg (a : List ℝ) : 0 ≤ dotL a a := by
  induction a with
  | nil => simp [dotL]
  | cons x xs ih =>
      have hx : 0 ≤ x * x := mul_self_nonneg x
      simp only [dotL, List.zipWith_cons_cons, List.sum_cons] at *
      exact add_nonneg hx ih

theorem dotL_sq_le (a : List ℝ) : ∀ b : List ℝ, (dotL a b) ^ 2 ≤ dotL a a * dotL b b := by
  induction a with
  | nil =>
      intro b
      have h := mul_nonneg (dotL_self_nonneg ([] : List ℝ)) (dotL_self_nonneg b)
      simp only [dotL, List.zipWith_nil_left, List.sum_nil] at *
      nlinarith [h]
  | cons x xs ih =>
      intro b
      cases b with
      | nil =>
          have h := mul_nonneg (dotL_self_nonneg (x :: xs)) (dotL_self_nonneg ([] : List ℝ))
          simp only [dotL, List.zipWith_nil_right, List.sum_nil] at *
          nlinarith [h]
      | cons y ys =>
          have hd : (dotL xs ys) ^ 2 ≤ dotL xs xs * dotL ys ys := ih ys
          have hp : 0 ≤ dotL xs xs := dotL_self_nonneg xs
          have hq : 0 ≤ dotL ys ys := dotL_self_nonneg ys
          have key : (x * y + dotL xs ys) ^ 2 ≤
              (x * x + dotL xs xs) * (y * y + dotL ys ys) := by
            by_cases hp0 : dotL xs xs = 0
            · have hd0 : dotL xs ys = 0 := by
                have : (dotL xs ys) ^ 2 ≤ 0 := by rw [hp0] at hd; linarith
                nlinarith [sq_nonneg (dotL xs ys)]
              rw [hp0, hd0]
              nlinarith [mul_nonneg (mul_self_nonneg x) hq]
            · have hppos : 0 < dotL xs xs := lt_of_le_of_ne hp (Ne.symm hp0)
              nlinarith [sq_nonneg (x * dotL xs ys - y * dotL xs xs),
                mul_nonneg (mul_self_nonneg x)
                  (sub_nonneg.2 hd),
                mul_nonneg hp (sub_nonneg.2 hd)]
          simp only [dotL, List.zipWith_cons_cons, List.sum_cons] at *
          exact key

theorem abs_dotL_le (a b : List ℝ) : |dotL a b| ≤ normL a * normL b := by
  have h1 : |dotL a b| = Real.sqrt ((dotL a b) ^ 2) := (Real.sqrt_sq_eq_abs _).symm
  have h2 : Real.sqrt ((dotL a b) ^ 2) ≤ Real.sqrt (dotL a a * dotL b b) :=
    Real.sqrt_le_sqrt (dotL_sq_le a b)
  have h3 : Real.sqrt (dotL a a * dotL b b) = normL a * normL b := by
    rw [normL, normL, Real.sqrt_mul (dotL_self_nonneg a)]
  rw [h1, ← h3]
  exact h2

theorem normL_nonneg (a : List ℝ) : 0 ≤ normL a := Real.sqrt_nonneg _

theorem cosine_bounds (v1 v2 : List ℝ) :
    -1 ≤ cosine_similarity v1 v2 ∧ cosine_similarity v1 v2 ≤ 1 := by
  rcases eq_or_lt_of_le (mul_nonneg (normL_nonneg v1) (normL_nonneg v2)) with h0 | hpos
  · constructor <;> · simp [cosine_similarity, ← h0]
  · have habs : |cosine_similarity v1 v2| ≤ 1 := by
      rw [cosine_similarity, abs_div, abs_of_pos hpos]
      exact div_le_one_of_le₀ (abs_dotL_le v1 v2) (le_of_lt hpos)
    exact abs_le.1 habs

/-! ## Proximity Ranking Engine

The Ranking Builder, Ranking Cache and Proximity Query API are modelled from
spec sections 4.2 to 4.4; their implementing module is not in the repository
snapshot.  The Vector Source together with the Similarity Function is
abstracted as a score function from pairs of words to rational scores,
standing for compute_similarity applied to the two resolved vectors. -/

/-- Score type for the engine model; stands for the floating-point
similarity values. -/
abbrev Score := ℚ

/-- A ranking entry with the original corpus index kept for tie-breaking:
(corpus index, word, similarity score). -/
abbrev Entry := ℕ × Word × Score

/-- Modelled from the spec: composite sort order of the Ranking Builder,
primary key descending score, secondary key ascending corpus index
(spec 4.2 step 3 and Design Note on sorting with stable tie-break). -/
def keyLE (a b : Entry) : Prop :=
  b.2.2 < a.2.2 ∨ (a.2.2 = b.2.2 ∧ a.1 ≤ b.1)

instance : DecidableRel keyLE := fun a b => by
  unfold keyLE; infer_instance

instance : IsTotal Entry keyLE where
  total a b := by
    rcases lt_trichotomy a.2.2 b.2.2 with h | h | h
    · exact Or.inr (Or.inl h)
    · rcases Nat.le_total a.1 b.1 with h' | h'
      · exact Or.inl (Or.inr ⟨h, h'⟩)
      · exact Or.inr (Or.inr ⟨h.symm, h'⟩)
    · exact Or.inl (Or.inl h)

instance : IsTrans Entry keyLE where
  trans a b c hab hbc := by
    rcases hab with h1 | ⟨h1, h1'⟩ <;> rcases hbc with h2 | ⟨h2, h2'⟩
    · exact Or.inl (lt_trans h2 h1)
    · exact Or.inl (h2 ▸ h1)
    · exact Or.inl (h1 ▸ h2)
    · exact Or.inr ⟨h1.trans h2, le_trans h1' h2'⟩

/-- Modelled from the spec: step 2 of the Ranking Builder, pairing every
corpus word with its index and its similarity score against the secret
word. -/
def scoredList (sim : Word → Word → Score) (secret : Word) (corpus : List Word) :
    List Entry :=
  corpus.enum.map (fun p => (p.1, p.2, sim secret p.2))

/-- Modelled from the spec: step 3 of the Ranking Builder, sorting by the
composite key (score descending, corpus index ascending). -/
def sortedEntries (sim : Word → Word → Score) (secret : Word) (corpus : List Word) :
    List Entry :=
  List.insertionSort keyLE (scoredList sim secret corpus)

/-- Modelled from the spec: the Ranking, an ordered sequence of
(Word, similarity) pairs (spec 4.2 step 4, RankEntry in the data model). -/
def buildRanking (sim : Word → Word → Score) (secret : Word) (corpus : List Word) :
    List (Word × Score) :=
  (sortedEntries sim secret corpus).map Prod.snd

/-- Words of the Ranking in ranking order. -/
def rankingWords (sim : Word → Word → Score) (secret : Word) (corpus : List Word) :
    List Word :=
  (buildRanking sim secret corpus).map Prod.fst

/-- First index of an element in a list, none when absent. -/
def idxOf? (g : Word) : List Word → Option ℕ
  | [] => none
  | w :: ws => if w = g then some 0 else (idxOf? g ws).map (· + 1)

/-- Modelled from the spec: rank_of of the Proximity Query API (spec 4.4).
The guess is normalized; a corpus member's rank is its index plus one in the
Ranking (1-based), a non-member gets null. -/
def rank_of (sim : Word → Word → Score) (secret : Word) (corpus : List Word)
    (guess : Word) : Option ℕ :=
  (idxOf? (normalizeW guess) (rankingWords sim secret corpus)).map (· + 1)

/-- Modelled from the spec: top_k of the Proximity Query API (spec 4.4),
the first k entries of the Ranking excluding the secret word at position 0,
with k clamped to the corpus size minus one. -/
def top_k (sim : Word → Word → Score) (secret : Word) (corpus : List Word)
    (k : ℕ) : List (Word × Score) :=
  ((buildRanking sim secret corpus).drop 1).take (min k (corpus.length - 1))

/-- Modelled from the spec: the Ranking Cache (spec 4.3), a bounded map
from secret word to built Ranking with least-recently-used eviction, plus a
build counter observable in tests (spec section 8). Entries are kept in
most-recently-used-first order. -/
structure RankingCache where
  entries : List (Word × List (Word × Score))
  cap : ℕ
  builds : ℕ

/-- Modelled from the spec: get_or_build (spec 4.3).  On hit the cached
Ranking is returned and its entry moves to the front; on miss the Ranking
Builder runs, the build counter increments, and the new entry is inserted at
the front; in both cases the entry list is truncated to the capacity bound,
dropping the least-recently-used entries from the back. -/
def get_or_build (sim : Word → Word → Score) (corpus : List Word)
    (c : RankingCache) (secret : Word) : List (Word × Score) × RankingCache :=
  match c.entries.find? (fun e => e.1 = secret) with
  | some e =>
      (e.2, { c with entries := ((secret, e.2) ::
        c.entries.eraseP (fun e' => e'.1 = secret)).take c.cap })
  | none =>
      let r := buildRanking sim secret corpus
      (r, { c with
        entries := ((secret, r) :: c.entries).take c.cap,
        builds := c.builds + 1 })

/-! ## Engine lemmas -/

theorem sortedEntries_perm (sim : Word → Word → Score) (secret : Word)
    (corpus : List Word) :
    (sortedEntries sim secret corpus).Perm (scoredList sim secret corpus) :=
  List.perm_insertionSort _ _

theorem sorted_sortedEntries (sim : Word → Word → Score) (secret : Word)
    (corpus : List Word) :
    List.Sorted keyLE (sortedEntries sim secret corpus) :=
  List.sorted_insertionSort _ _

theorem mem_sortedEntries_shape {sim : Word → Word → Score} {secret : Word}
    {corpus : List Word} {e : Entry} (he : e ∈ sortedEntries sim secret corpus) :
    e.2.1 ∈ corpus ∧ e.2.2 = sim secret e.2.1 := by
  have hm : e ∈ scoredList sim secret corpus :=
    (sortedEntries_perm sim secret corpus).mem_iff.1 he
  rcases List.mem_map.1 hm with ⟨p, hp, rfl⟩
  have hg : corpus[p.1]? = some p.2 := List.mem_enum_iff_getElem?.1 hp
  rcases List.getElem?_eq_some.1 hg with ⟨hlt, hval⟩
  exact ⟨hval ▸ List.getElem_mem hlt, rfl⟩

theorem entry_mem_sortedEntries (sim : Word → Word → Score) (secret : Word)
    {A : Word} {corpus : List Word} (hA : A ∈ corpus) :
    ∃ i, (i, A, sim secret A) ∈ sortedEntries sim secret corpus := by
  rcases List.getElem?_of_mem hA with ⟨n, hn⟩
  refine ⟨n, (sortedEntries_perm sim secret corpus).mem_iff.2 ?_⟩
  exact List.mem_map.2 ⟨(n, A), List.mem_enum_iff_getElem?.2 hn, rfl⟩

theorem rankingWords_eq_map (sim : Word → Word → Score) (secret : Word)
    (corpus : List Word) :
    rankingWords sim secret corpus =
      (sortedEntries sim secret corpus).map (fun e => e.2.1) := by
  simp [rankingWords, buildRanking, List.map_map, Function.comp]

theorem rankingWords_perm (sim : Word → Word → Score) (secret : Word)
    (corpus : List Word) :
    (rankingWords sim secret corpus).Perm corpus := by
  rw [rankingWords_eq_map]
  have h1 : ((sortedEntries sim secret corpus).map (fun e => e.2.1)).Perm
      ((scoredList sim secret corpus).map (fun e => e.2.1)) :=
    (sortedEntries_perm sim secret corpus).map _
  have h2 : (scoredList sim secret corpus).map (fun e => e.2.1) = corpus := by
    simp only [scoredList, List.map_map, Function.comp]
    exact List.enum_map_snd corpus
  rw [h2] at h1
  exact h1

theorem length_buildRanking (sim : Word → Word → Score) (secret : Word)
    (corpus : List Word) :
    (buildRanking sim secret corpus).length = corpus.length := by
  have h := (rankingWords_perm sim secret corpus).length_eq
  simpa [rankingWords] using h

theorem score_le_of_index_lt {sim : Word → Word → Score} {secret : Word}
    {corpus : List Word} {i j : ℕ} {ei ej : Entry} (hij : i < j)
    (hi : (sortedEntries sim secret corpus)[i]? = some ei)
    (hj : (sortedEntries sim secret corpus)[j]? = some ej) :
    ej.2.2 ≤ ei.2.2 := by
  rcases List.getElem?_eq_some.1 hi with ⟨hli, hvi⟩
  rcases List.getElem?_eq_some.1 hj with ⟨hlj, hvj⟩
  have hrel : keyLE ((sortedEntries sim secret corpus).get ⟨i, hli⟩)
      ((sortedEntries sim secret corpus).get ⟨j, hlj⟩) :=
    (sorted_sortedEntries sim secret corpus).rel_get_of_lt hij
  have hrel' : keyLE ei ej := by
    simpa [List.get_eq_getElem, hvi, hvj] using hrel
  rcases hrel' with h | ⟨h, _⟩
  · exact le_of_lt h
  · exact le_of_eq h.symm

theorem idxOf?_eq_none_iff (g : Word) (l : List Word) :
    idxOf? g l = none ↔ g ∉ l := by
  induction l with
  | nil => simp [idxOf?]
  | cons w ws ih =>
      by_cases h : w = g
      · simp [idxOf?, h]
      · simp only [idxOf?, if_neg h, Option.map_eq_none', List.mem_cons, ih]
        constructor
        · intro hn hc
          rcases hc with hc | hc
          · exact h hc.symm
          · exact hn hc
        · intro hn hc
          exact hn (Or.inr hc)

theorem idxOf?_eq_some_getElem {g : Word} {l : List Word} :
    ∀ {i : ℕ}, idxOf? g l = some i → l[i]? = some g := by
  induction l with
  | nil => intro i h; simp [idxOf?] at h
  | cons w ws ih =>
      intro i h
      by_cases hw : w = g
      · simp only [idxOf?, if_pos hw] at h
        cases h
        simp [hw]
      · simp only [idxOf?, if_neg hw] at h
        cases hx : idxOf? g ws with
        | none => rw [hx] at h; simp at h
        | some j =>
            rw [hx] at h
            simp only [Option.map_some'] at h
            cases h
            simpa using ih hx

theorem idxOf?_cons_self (g : Word) (l : List Word) :
    idxOf? g (g :: l) = some 0 := by
  simp [idxOf?]

theorem idxOf?_isSome_of_mem {g : Word} {l : List Word} (h : g ∈ l) :
    ∃ i, idxOf? g l = some i := by
  rcases hx : idxOf? g l with _ | i
  · exact absurd h ((idxOf?_eq_none_iff g l).1 hx)
  · exact ⟨i, rfl⟩

theorem rankingWords_getElem?_iff {sim : Word → Word → Score} {secret : Word}
    {corpus : List Word} {i : ℕ} {w : Word} :
    (rankingWords sim secret corpus)[i]? = some w ↔
      ∃ e : Entry, (sortedEntries sim secret corpus)[i]? = some e ∧ e.2.1 = w := by
  rw [rankingWords_eq_map, List.getElem?_map]
  cases hx : (sortedEntries sim secret corpus)[i]? with
  | none => simp
  | some e => simp

theorem head_entry_secret {sim : Word → Word → Score} {S : Word}
    {corpus : List Word} (hS : S ∈ corpus) (hSS : sim S S = 1)
    (hmax : ∀ w ∈ corpus, w ≠ S → sim S w < 1) :
    ∃ i, (sortedEntries sim S corpus).head? = some (i, S, 1) := by
  rcases entry_mem_sortedEntries sim S hS with ⟨k, hk⟩
  have hne : sortedEntries sim S corpus ≠ [] := by
    intro h0
    rw [h0] at hk
    exact absurd hk (List.not_mem_nil _)
  rcases List.exists_cons_of_ne_nil hne with ⟨e0, t, ht⟩
  have he0 : e0 ∈ sortedEntries sim S corpus := ht ▸ List.mem_cons_self e0 t
  rcases mem_sortedEntries_shape he0 with ⟨hw0, hs0⟩
  by_cases hcase : e0.2.1 = S
  · refine ⟨e0.1, ?_⟩
    rw [ht]
    have : e0 = (e0.1, S, 1) := by
      have : e0.2.2 = 1 := by rw [hs0, hcase, hSS]
      rw [Prod.ext_iff, Prod.ext_iff]
      exact ⟨rfl, hcase, this⟩
    rw [← this]
    rfl
  · exfalso
    rcases List.getElem?_of_mem hk with ⟨p, hp⟩
    have hp0 : 0 < p := by
      rcases Nat.eq_zero_or_pos p with rfl | h
      · exfalso
        rw [ht] at hp
        simp only [List.getElem?_cons_zero, Option.some.injEq] at hp
        rw [hp] at hcase
        exact hcase rfl
      · exact h
    have h0 : (sortedEntries sim S corpus)[0]? = some e0 := by
      rw [ht]
      simp
    have hle : (k, S, sim S S).2.2 ≤ e0.2.2 := score_le_of_index_lt hp0 h0 hp
    have hlt : sim S e0.2.1 < 1 := hmax e0.2.1 hw0 hcase
    rw [hSS] at hle
    rw [hs0] at hle
    exact absurd hle (not_le.2 hlt)

theorem buildRanking_getElem?_iff {sim : Word → Word → Score} {secret : Word}
    {corpus : List Word} {i : ℕ} {x : Word × Score} :
    (buildRanking sim secret corpus)[i]? = some x ↔
      ∃ e : Entry, (sortedEntries sim secret corpus)[i]? = some e ∧ e.2 = x := by
  rw [buildRanking, List.getElem?_map]
  cases hx : (sortedEntries sim secret corpus)[i]? with
  | none => simp
  | some e => simp

theorem buildRanking_head {sim : Word → Word → Score} {S : Word}
    {corpus : List Word} (hS : S ∈ corpus) (hSS : sim S S = 1)
    (hmax : ∀ w ∈ corpus, w ≠ S → sim S w < 1) :
    (buildRanking sim S corpus).head? = some (S, 1) := by
  rcases head_entry_secret hS hSS hmax with ⟨i, hh⟩
  rw [buildRanking, List.head?_map, hh]
  rfl

theorem rankingWords_cons {sim : Word → Word → Score} {S : Word}
    {corpus : List Word} (hS : S ∈ corpus) (hSS : sim S S = 1)
    (hmax : ∀ w ∈ corpus, w ≠ S → sim S w < 1) :
    ∃ t, rankingWords sim S corpus = S :: t := by
  have hh : (rankingWords sim S corpus).head? = some S := by
    rw [rankingWords, List.head?_map, buildRanking_head hS hSS hmax]
    rfl
  exact List.head?_eq_some_iff.1 hh

theorem sortedEntries_indices_nodup (sim : Word → Word → Score) (secret : Word)
    (corpus : List Word) :
    ((sortedEntries sim secret corpus).map (fun e => e.1)).Nodup := by
  have hperm : ((sortedEntries sim secret corpus).map (fun e => e.1)).Perm
      ((scoredList sim secret corpus).map (fun e => e.1)) :=
    (sortedEntries_perm sim secret corpus).map _
  have heq : (scoredList sim secret corpus).map (fun e => e.1) =
      List.range corpus.length := by
    simp only [scoredList, List.map_map, Function.comp]
    exact List.enum_map_fst corpus
  refine hperm.symm.nodup ?_
  rw [heq]
  exact List.nodup_range corpus.length

/-! ## Score endpoint and frontend display -/

/-- Translated from the score_guess handler quoted in the repository docs
(the backend module is not in the snapshot): the guess is stripped and
lowercased, scored with compute_similarity against the secret word, and
compared with the secret word for exact match.  The pair holds the
similarity and is_correct fields of the response. -/
noncomputable def score_guess (vec : Word → List ℝ) (secret : Word)
    (guess : Word) : ℝ × Bool :=
  (compute_similarity (vec (normalizeW guess)) (vec secret),
    decide (normalizeW guess = secret))

/-- Rendered proximity states of the frontend guess-history table. -/
inductive ProximityDisplay where
  | exactMatch : ProximityDisplay
  | outOf : ℤ → ProximityDisplay
  | warm : ProximityDisplay
  | cold : ProximityDisplay
deriving DecidableEq

/-- Translated from the guess-history rendering in frontend app/page.tsx:
exact matches render as the exact-match state; a present rank of at most
1000 renders as displayRank out of 1000 with displayRank = 1000 - rank,
special-cased to 999 for ranks of at most 2; every other guess renders warm
when it is in the top 1500 and cold otherwise. -/
def proximityDisplay (isCorrect : Bool) (proximityRank : Option ℤ)
    (inTop1500 : Bool) : ProximityDisplay :=
  if isCorrect then .exactMatch
  else
    match proximityRank with
    | some r =>
        if r ≤ 1000 then
          if r ≤ 2 then .outOf 999 else .outOf (1000 - r)
        else if inTop1500 then .warm else .cold
    | none => if inTop1500 then .warm else .cold

/-! ## Concrete demonstration values for witnesses -/

/-- The word apple from the spec's example scenario. -/
def appleW : Word := ['a', 'p', 'p', 'l', 'e']

/-- The word banana from the spec's example scenario. -/
def bananaW : Word := ['b', 'a', 'n', 'a', 'n', 'a']

/-- A guess for apple with extra whitespace and capital letters. -/
def messyAppleW : Word := [' ', 'A', 'p', 'P', 'l', 'e', ' ']

/-- A two-word corpus for the witnesses. -/
def demoCorpus : List Word := [appleW, bananaW]

/-- A deterministic stub similarity source, as in the spec's design note on
testing with a deterministic stub vector source. -/
def demoSim : Word → Word → Score := fun a b => if a = b then 1 else 0

/-- A deterministic stub vector source. -/
noncomputable def demoVec : Word → List ℝ := fun _ => [(1 : ℝ)]

/-- An empty cache of capacity one, as in the spec's eviction scenario. -/
def demoCache0 : RankingCache := ⟨[], 1, 0⟩

/-- The cache after building the Ranking for apple. -/
def demoCache1 : RankingCache :=
  (get_or_build demoSim demoCorpus demoCache0 appleW).2

/-- The cache after then building the Ranking for banana. -/
def demoCache2 : RankingCache :=
  (get_or_build demoSim demoCorpus demoCache1 bananaW).2

/-- The cache after then querying apple again. -/
def demoCache3 : RankingCache :=
  (get_or_build demoSim demoCorpus demoCache2 appleW).2

/-! ## Claim theorems -/

/-- C1: for every pair of word vectors, the raw cosine similarity lies in
[-1, 1], the similarity returned to the caller lies in [0, 1], and the
returned value is the raw cosine mapped through (cos + 1) / 2, except in the
degenerate zero-magnitude case where it is 0. -/
theorem claim_C1_similarity_range (v1 v2 : List ℝ) :
    (-1 ≤ cosine_similarity v1 v2 ∧ cosine_similarity v1 v2 ≤ 1) ∧
    (0 ≤ compute_similarity v1 v2 ∧ compute_similarity v1 v2 ≤ 1) ∧
    (compute_similarity v1 v2 = (cosine_similarity v1 v2 + 1) / 2 ∨
      compute_similarity v1 v2 = 0) := by
  obtain ⟨hl, hr⟩ := cosine_bounds v1 v2
  refine ⟨⟨hl, hr⟩, ?_, ?_⟩
  · unfold compute_similarity
    split_ifs with h
    · norm_num
    · constructor <;> linarith
  · unfold compute_similarity
    split_ifs with h
    · exact Or.inr rfl
    · exact Or.inl rfl

/-- C7: when either vector has zero magnitude the similarity is defined to
be 0.0; the cosine division is guarded and never taken in that case. -/
theorem claim_C7_zero_magnitude (v1 v2 : List ℝ)
    (h : normL v1 = 0 ∨ normL v2 = 0) :
    compute_similarity v1 v2 = 0 := by
  unfold compute_similarity
  exact if_pos h

/-- Witness for C7 at the zero vector against a unit vector. -/
theorem claim_C7_witness : compute_similarity [(0 : ℝ)] [(1 : ℝ)] = 0 :=
  claim_C7_zero_magnitude [(0 : ℝ)] [(1 : ℝ)]
    (Or.inl (by simp [normL, dotL]))

/-- C8: scoring depends on a guess only through its normalized form, so
guesses differing only in case or surrounding whitespace get the same
similarity and the same is_correct verdict. -/
theorem claim_C8_normalization_invariance (vec : Word → List ℝ)
    (secret g1 g2 : Word) (h : normalizeW g1 = normalizeW g2) :
    score_guess vec secret g1 = score_guess vec secret g2 := by
  unfold score_guess
  rw [h]

/-- Witness for C8: a padded mixed-case spelling of apple scores exactly as
the plain spelling. -/
theorem claim_C8_witness :
    score_guess demoVec appleW messyAppleW = score_guess demoVec appleW appleW :=
  claim_C8_normalization_invariance demoVec appleW messyAppleW appleW (by decide)

/-- C10: in the guess-history display an incorrect guess with a present
rank of at most 1000 renders as a value in [0, 999], namely 1000 - rank
above rank 2 and exactly 999 at ranks 1 and 2 (which are therefore
indistinguishable), while absent or larger ranks fall through to the warm
and cold labels. -/
theorem claim_C10_proximity_display (r : ℤ) (t : Bool) (hr : r ≤ 1000) :
    (∃ d, proximityDisplay false (some r) t = .outOf d ∧ 0 ≤ d ∧ d ≤ 999) ∧
    (2 < r → proximityDisplay false (some r) t = .outOf (1000 - r)) ∧
    (r = 1 ∨ r = 2 → proximityDisplay false (some r) t = .outOf 999) ∧
    proximityDisplay false (some 1) t = proximityDisplay false (some 2) t ∧
    (∀ r' : ℤ, 1000 < r' →
      proximityDisplay false (some r') t = if t then .warm else .cold) ∧
    (proximityDisplay false none t = if t then .warm else .cold) := by
  refine ⟨?_, ?_, ?_, ?_, ?_, ?_⟩
  · by_cases h2 : r ≤ 2
    · exact ⟨999, by simp [proximityDisplay, hr, h2], by norm_num, by norm_num⟩
    · exact ⟨1000 - r, by simp [proximityDisplay, hr, h2], by omega, by omega⟩
  · intro h2
    have : ¬ r ≤ 2 := by omega
    simp [proximityDisplay, hr, this]
  · intro h12
    have : r ≤ 2 := by omega
    simp [proximityDisplay, hr, this]
  · simp [proximityDisplay]
  · intro r' h'
    have : ¬ r' ≤ 1000 := by omega
    cases t <;> simp [proximityDisplay, this]
  · cases t <;> simp [proximityDisplay]

/-- Witness for C10 at rank 5: the display shows 995 out of 1000. -/
theorem claim_C10_witness :
    proximityDisplay false (some 5) false = ProximityDisplay.outOf 995 := by
  have h := claim_C10_proximity_display 5 false (by norm_num)
  have h2 := h.2.1 (by norm_num)
  simpa using h2

/-- C2: a corpus word strictly more similar to the secret sits strictly
earlier in the Ranking, and along Ranking positions the similarity scores
are non-increasing. -/
theorem claim_C2_monotone_ranking (sim : Word → Word → Score) (S A B : Word)
    (corpus : List Word) (hA : A ∈ corpus) (hB : B ∈ corpus)
    (h : sim S B < sim S A) :
    (∃ ia ib, idxOf? A (rankingWords sim S corpus) = some ia ∧
      idxOf? B (rankingWords sim S corpus) = some ib ∧ ia < ib) ∧
    (∀ i j : ℕ, ∀ ei ej : Word × Score, i < j →
      (buildRanking sim S corpus)[i]? = some ei →
      (buildRanking sim S corpus)[j]? = some ej → ej.2 ≤ ei.2) := by
  have hmono : ∀ i j : ℕ, ∀ ei ej : Word × Score, i < j →
      (buildRanking sim S corpus)[i]? = some ei →
      (buildRanking sim S corpus)[j]? = some ej → ej.2 ≤ ei.2 := by
    intro i j ei ej hij hi hj
    rcases buildRanking_getElem?_iff.1 hi with ⟨e, he, rfl⟩
    rcases buildRanking_getElem?_iff.1 hj with ⟨f, hf, rfl⟩
    exact score_le_of_index_lt hij he hf
  refine ⟨?_, hmono⟩
  have hmemA : A ∈ rankingWords sim S corpus :=
    (rankingWords_perm sim S corpus).mem_iff.2 hA
  have hmemB : B ∈ rankingWords sim S corpus :=
    (rankingWords_perm sim S corpus).mem_iff.2 hB
  rcases idxOf?_isSome_of_mem hmemA with ⟨ia, hia⟩
  rcases idxOf?_isSome_of_mem hmemB with ⟨ib, hib⟩
  refine ⟨ia, ib, hia, hib, ?_⟩
  have hgA := idxOf?_eq_some_getElem hia
  have hgB := idxOf?_eq_some_getElem hib
  rcases rankingWords_getElem?_iff.1 hgA with ⟨ea, hea, heaw⟩
  rcases rankingWords_getElem?_iff.1 hgB with ⟨eb, heb, hebw⟩
  have hsa : ea.2.2 = sim S A := by
    rcases List.getElem?_eq_some.1 hea with ⟨hl, hv⟩
    have hm : ea ∈ sortedEntries sim S corpus := hv ▸ List.getElem_mem hl
    rcases mem_sortedEntries_shape hm with ⟨_, hsc⟩
    rw [hsc, heaw]
  have hsb : eb.2.2 = sim S B := by
    rcases List.getElem?_eq_some.1 heb with ⟨hl, hv⟩
    have hm : eb ∈ sortedEntries sim S corpus := hv ▸ List.getElem_mem hl
    rcases mem_sortedEntries_shape hm with ⟨_, hsc⟩
    rw [hsc, hebw]
  rcases lt_trichotomy ia ib with hlt | heq | hgt
  · exact hlt
  · exfalso
    subst heq
    rw [hgA] at hgB
    have hAB : A = B := by injection hgB
    rw [hAB] at h
    exact absurd h (lt_irrefl _)
  · exfalso
    have hle := score_le_of_index_lt hgt heb hea
    rw [hsa, hsb] at hle
    exact absurd h (not_lt.2 hle)

/-- Witness for C2 on the demo corpus with secret apple: apple is more
similar to itself than banana is, and it sits strictly earlier. -/
theorem claim_C2_witness :
    (∃ ia ib, idxOf? appleW (rankingWords demoSim appleW demoCorpus) = some ia ∧
      idxOf? bananaW (rankingWords demoSim appleW demoCorpus) = some ib ∧
      ia < ib) ∧
    (∀ i j : ℕ, ∀ ei ej : Word × Score, i < j →
      (buildRanking demoSim appleW demoCorpus)[i]? = some ei →
      (buildRanking demoSim appleW demoCorpus)[j]? = some ej → ej.2 ≤ ei.2) :=
  claim_C2_monotone_ranking demoSim appleW appleW bananaW demoCorpus
    (by decide) (by decide) (by decide)

/-- C3: the secret word itself gets rank 1, sits at position 0 of the
Ranking with the maximal similarity, and the Ranking covers the whole
corpus. -/
theorem claim_C3_secret_rank_one (sim : Word → Word → Score) (S : Word)
    (corpus : List Word) (hS : S ∈ corpus) (hnorm : normalizeW S = S)
    (hSS : sim S S = 1) (hmax : ∀ w ∈ corpus, w ≠ S → sim S w < 1) :
    rank_of sim S corpus S = some 1 ∧
    (buildRanking sim S corpus).head? = some (S, 1) ∧
    (buildRanking sim S corpus).length = corpus.length ∧
    (rankingWords sim S corpus).Perm corpus := by
  refine ⟨?_, buildRanking_head hS hSS hmax, length_buildRanking sim S corpus,
    rankingWords_perm sim S corpus⟩
  rcases rankingWords_cons hS hSS hmax with ⟨t, ht⟩
  rw [rank_of, hnorm, ht, idxOf?_cons_self]
  rfl

/-- Witness for C3 on the demo corpus with secret apple. -/
theorem claim_C3_witness :
    rank_of demoSim appleW demoCorpus appleW = some 1 ∧
    (buildRanking demoSim appleW demoCorpus).head? = some (appleW, 1) ∧
    (buildRanking demoSim appleW demoCorpus).length = demoCorpus.length ∧
    (rankingWords demoSim appleW demoCorpus).Perm demoCorpus :=
  claim_C3_secret_rank_one demoSim appleW demoCorpus (by decide) (by decide)
    (by decide) (by decide)

/-- C4: top_k returns exactly min(k, corpus size - 1) entries, never
contains the secret word, and is an initial segment of the Ranking with
position 0 removed. -/
theorem claim_C4_top_k (sim : Word → Word → Score) (S : Word)
    (corpus : List Word) (k : ℕ) (hS : S ∈ corpus) (hnd : corpus.Nodup)
    (hSS : sim S S = 1) (hmax : ∀ w ∈ corpus, w ≠ S → sim S w < 1) :
    (top_k sim S corpus k).length = min k (corpus.length - 1) ∧
    (∀ e ∈ top_k sim S corpus k, e.1 ≠ S) ∧
    (∃ t, top_k sim S corpus k ++ t = (buildRanking sim S corpus).drop 1) := by
  refine ⟨?_, ?_, ⟨_, List.take_append_drop _ _⟩⟩
  · rw [top_k, List.length_take, List.length_drop, length_buildRanking]
    have h1 : 1 ≤ corpus.length := List.length_pos_of_mem hS
    omega
  · intro e he hee
    rcases rankingWords_cons hS hSS hmax with ⟨t, ht⟩
    have hnodup : (rankingWords sim S corpus).Nodup :=
      (rankingWords_perm sim S corpus).symm.nodup hnd
    rw [ht] at hnodup
    have hSt : S ∉ t := (List.nodup_cons.1 hnodup).1
    have hmem : e ∈ (buildRanking sim S corpus).drop 1 :=
      (List.take_sublist _ _).mem he
    have hmw : e.1 ∈ ((buildRanking sim S corpus).drop 1).map Prod.fst :=
      List.mem_map_of_mem _ hmem
    rw [List.map_drop] at hmw
    have hrw : (buildRanking sim S corpus).map Prod.fst =
        rankingWords sim S corpus := rfl
    rw [hrw, ht] at hmw
    simp only [List.drop_succ_cons, List.drop_zero] at hmw
    exact hSt (hee ▸ hmw)

/-- Witness for C4 on the demo corpus with secret apple and k set to 1. -/
theorem claim_C4_witness :
    (top_k demoSim appleW demoCorpus 1).length = min 1 (demoCorpus.length - 1) ∧
    (∀ e ∈ top_k demoSim appleW demoCorpus 1, e.1 ≠ appleW) ∧
    (∃ t, top_k demoSim appleW demoCorpus 1 ++ t =
      (buildRanking demoSim appleW demoCorpus).drop 1) :=
  claim_C4_top_k demoSim appleW demoCorpus 1 (by decide) (by decide)
    (by decide) (by decide)

/-- C5: rank_of is defined exactly on normalized guesses that are corpus
members; for a member the rank is 1 plus its index in the Ranking, and a
non-member gets null rather than being inserted into the order. -/
theorem claim_C5_rank_iff_membership (sim : Word → Word → Score) (S G : Word)
    (corpus : List Word) :
    (rank_of sim S corpus G ≠ none ↔ normalizeW G ∈ corpus) ∧
    (∀ r, rank_of sim S corpus G = some r →
      1 ≤ r ∧ (rankingWords sim S corpus)[r - 1]? = some (normalizeW G)) := by
  constructor
  · rw [rank_of]
    constructor
    · intro hne
      have hnn : idxOf? (normalizeW G) (rankingWords sim S corpus) ≠ none := by
        intro h0
        rw [h0] at hne
        exact hne rfl
      have hm : normalizeW G ∈ rankingWords sim S corpus := by
        by_contra hc
        exact hnn ((idxOf?_eq_none_iff _ _).2 hc)
      exact (rankingWords_perm sim S corpus).mem_iff.1 hm
    · intro hm
      have hm' : normalizeW G ∈ rankingWords sim S corpus :=
        (rankingWords_perm sim S corpus).mem_iff.2 hm
      rcases idxOf?_isSome_of_mem hm' with ⟨i, hi⟩
      rw [hi]
      simp
  · intro r hr
    rw [rank_of] at hr
    rcases Option.map_eq_some'.1 hr with ⟨i, hi, rfl⟩
    refine ⟨by omega, ?_⟩
    have hg := idxOf?_eq_some_getElem hi
    simpa using hg

/-- Witness for C5: the padded mixed-case apple guess normalizes to a
corpus member and receives rank 1 plus its Ranking index. -/
theorem claim_C5_witness :
    (rank_of demoSim appleW demoCorpus messyAppleW ≠ none ↔
      normalizeW messyAppleW ∈ demoCorpus) ∧
    (∀ r, rank_of demoSim appleW demoCorpus messyAppleW = some r →
      1 ≤ r ∧ (rankingWords demoSim appleW demoCorpus)[r - 1]? =
        some (normalizeW messyAppleW)) :=
  claim_C5_rank_iff_membership demoSim appleW messyAppleW demoCorpus

/-- C6: rebuilding the Ranking with the same inputs yields the identical
sequence, and entries with equal similarity appear in ascending corpus
insertion order, the fixed secondary key. -/
theorem claim_C6_deterministic_tiebreak (sim : Word → Word → Score) (S : Word)
    (corpus : List Word) :
    buildRanking sim S corpus = buildRanking sim S corpus ∧
    (∀ i j : ℕ, ∀ ei ej : Entry, i < j →
      (sortedEntries sim S corpus)[i]? = some ei →
      (sortedEntries sim S corpus)[j]? = some ej →
      ei.2.2 = ej.2.2 → ei.1 < ej.1) := by
  refine ⟨rfl, ?_⟩
  intro i j ei ej hij hi hj heq
  rcases List.getElem?_eq_some.1 hi with ⟨hli, hvi⟩
  rcases List.getElem?_eq_some.1 hj with ⟨hlj, hvj⟩
  have hrel : keyLE ei ej := by
    have hr := List.Sorted.rel_get_of_lt (sorted_sortedEntries sim S corpus)
      (a := ⟨i, hli⟩) (b := ⟨j, hlj⟩) (Fin.mk_lt_mk.2 hij)
    simpa [List.get_eq_getElem, hvi, hvj] using hr
  have hne : ei.1 ≠ ej.1 := by
    intro hcon
    have hnd := sortedEntries_indices_nodup sim S corpus
    have hmi : ((sortedEntries sim S corpus).map (fun e => e.1))[i]? =
        some ei.1 := by
      rw [List.getElem?_map, hi]
      rfl
    have hmj : ((sortedEntries sim S corpus).map (fun e => e.1))[j]? =
        some ej.1 := by
      rw [List.getElem?_map, hj]
      rfl
    rcases List.getElem?_eq_some.1 hmi with ⟨hli', hvi'⟩
    rcases List.getElem?_eq_some.1 hmj with ⟨hlj', hvj'⟩
    have hijeq : i = j := (hnd.getElem_inj_iff).1 (by rw [hvi', hvj', hcon])
    omega
  rcases hrel with hlt | ⟨_, hle⟩
  · rw [heq] at hlt
    exact absurd hlt (lt_irrefl _)
  · exact lt_of_le_of_ne hle hne

/-- Witness for C6 on the demo corpus with secret apple. -/
theorem claim_C6_witness :
    buildRanking demoSim appleW demoCorpus = buildRanking demoSim appleW demoCorpus ∧
    (∀ i j : ℕ, ∀ ei ej : Entry, i < j →
      (sortedEntries demoSim appleW demoCorpus)[i]? = some ei →
      (sortedEntries demoSim appleW demoCorpus)[j]? = some ej →
      ei.2.2 = ej.2.2 → ei.1 < ej.1) :=
  claim_C6_deterministic_tiebreak demoSim appleW demoCorpus

/-- C9: the cache never holds more than its capacity bound of entries, and
in the capacity-one scenario building apple, then banana, then querying
apple again evicts and rebuilds, with the build counter reaching three. -/
theorem claim_C9_cache_bound_and_eviction :
    (∀ (sim : Word → Word → Score) (corpus : List Word) (c : RankingCache)
      (S : Word), ((get_or_build sim corpus c S).2).entries.length ≤ c.cap ∧
      ((get_or_build sim corpus c S).2).cap = c.cap) ∧
    (demoCache1.builds = 1 ∧ demoCache1.entries.map Prod.fst = [appleW] ∧
      demoCache2.builds = 2 ∧ demoCache2.entries.map Prod.fst = [bananaW] ∧
      demoCache3.builds = 3 ∧ demoCache3.entries.map Prod.fst = [appleW]) := by
  constructor
  · intro sim corpus c S
    constructor
    · unfold get_or_build
      split <;> simp [List.length_take]
    · unfold get_or_build
      split <;> rfl
  · refine ⟨by decide, by decide, by decide, by decide, by decide, by decide⟩

end WordGuesser
